import Mathlib

/-!
Verification of the structural change-detection core of `volume-logger.py`
(Dark-Bay/volume-logger).

The development shallowly embeds the Python source:

* JSON documents (`res.json()`) become the tree type `J`
  (`Map | List | Scalar`), with maps as association lists in insertion
  order (Python dicts preserve insertion order and have unique keys).
* `dict_compare` becomes `dcF`/`dictCompare` (with a structural fuel
  parameter that dominates the recursion depth); a Python exception
  escaping the call (the `working_path.join('.')` `AttributeError`,
  the `set(...)` `TypeError` on unhashable elements, and the
  `.items()`/`in`/indexing failures on non-dict arguments) is
  modelled as `Except.error ()`.
* The `VETO` regex list becomes the boolean predicate `veto`.  The
  regexes are translated to explicit string computations; `\d` is
  modelled as an ASCII digit and strings are assumed newline-free
  (`re.match` with `.`/`$` treats `\n` specially; the telemetry field
  names involved are ASCII identifiers).
* `Processor.sample` becomes `sampleStep`, `Processor.compare` becomes
  `procCompare`, the vendor probe in `Processor.__init__` becomes
  `vendorDetect`, and the display-id computation becomes `displayId`.

Pure string helpers are written by direct recursion over character
lists so that every definition evaluates by `rfl`/`decide`.
-/

/-- Scalar JSON values (numbers are modelled as integers; the claims
under scrutiny involve no floating point). -/
inductive Scalar where
  | num : Int → Scalar
  | str : String → Scalar
  | boolean : Bool → Scalar
  | null : Scalar
deriving DecidableEq

/-- Python `==` on scalars: `True == 1`, `False == 0`, numbers compare by
value, strings with strings, `None` only with `None`. -/
def Scalar.asNum : Scalar → Option Int
  | .num n => some n
  | .boolean b => some (if b then 1 else 0)
  | _ => none

def pyEq (x y : Scalar) : Bool :=
  match x, y with
  | .str s, .str t => s == t
  | .null, .null => true
  | x, y =>
    match x.asNum, y.asNum with
    | some m, some n => m == n
    | _, _ => false

/-- JSON-like snapshot trees: `Map(string → Snapshot)`, `List`, `Scalar`.
Maps are association lists in insertion order. -/
inductive J where
  | map : List (String × J) → J
  | list : List J → J
  | scalar : Scalar → J

def J.isMap : J → Bool
  | .map _ => true
  | _ => false

/-- Python `b[k]` / `k in b` on a dict: first (unique) matching key. -/
def lookupJ : List (String × J) → String → Option J
  | [], _ => none
  | (k, v) :: rest, key => if k == key then some v else lookupJ rest key

/-- `'.'.join(working_path)` from the source. -/
def joinPath : List String → String
  | [] => ""
  | [s] => s
  | s :: rest => s ++ "." ++ joinPath rest

/-! ### Character-level string helpers (all evaluate by `rfl`) -/

/-- Does `l` start with `pat`? -/
def startsWithL : List Char → List Char → Bool
  | [], _ => true
  | _ :: _, [] => false
  | a :: as, b :: bs => a == b && startsWithL as bs

/-- `s.endswith(suffix)`. -/
def endsWithStr (s suffix : String) : Bool :=
  startsWithL suffix.data.reverse s.data.reverse

/-- `s.startswith(pre)`. -/
def startsWithStr (s pre : String) : Bool :=
  startsWithL pre.data s.data

/-- Does `pat` occur as a contiguous substring of `l`? -/
def containsSubL (pat : List Char) : List Char → Bool
  | [] => pat.isEmpty
  | c :: rest => startsWithL pat (c :: rest) || containsSubL pat rest

/-- Does `pat` occur as a contiguous substring of `s`? -/
def containsSub (s pat : String) : Bool :=
  containsSubL pat.data s.data

/-- `host.split(".")`: split on a literal dot, keeping empty pieces. -/
def splitDotAux : List Char → List Char → List String
  | [], acc => [String.mk acc.reverse]
  | '.' :: rest, acc => String.mk acc.reverse :: splitDotAux rest []
  | c :: rest, acc => splitDotAux rest (c :: acc)

def splitDot (s : String) : List String := splitDotAux s.data []

/-- Length of the maximal run of ASCII digits at the end of `s`
(the `\d+` just before an anchored literal suffix). -/
def trailingDigits (s : String) : Nat :=
  (s.data.reverse.takeWhile Char.isDigit).length

/-- `s[:-n]` for `n ≤ len(s)`. -/
def dropRightStr (s : String) (n : Nat) : String :=
  String.mk (s.data.take (s.data.length - n))

/-! ### The `VETO` rule set (lines 35-44 of the source)

Each regex from the `VETO` list, applied with `re.match` (anchored at
the start, not at the end unless the pattern ends in `$`), is
translated to an equivalent string computation. -/

/-- Words of `.*\.(reboots|discovered|since|uptime|runtime|freq|CPUTemp|outputFreq|current-date-time)$`. -/
def vetoWords : List String :=
  ["reboots", "discovered", "since", "uptime", "runtime", "freq",
   "CPUTemp", "outputFreq", "current-date-time"]

/-- Words of `.*\.(volts|currents|counters|temps|fans)\.[^.]+$`. -/
def noisyWords : List String :=
  ["volts", "currents", "counters", "temps", "fans"]

/-- `.*\.FanCtrl\(\d+\)$`. -/
def vetoFanCtrl (s : String) : Bool :=
  if endsWithStr s ")" then
    let t := dropRightStr s 1
    let n := trailingDigits t
    n != 0 && endsWithStr (dropRightStr t n) ".FanCtrl("
  else false

/-- `.*\.SFP #\d+ [TR]x$`. -/
def vetoSfpTxRx (s : String) : Bool :=
  if endsWithStr s " Tx" || endsWithStr s " Rx" then
    let t := dropRightStr s 3
    let n := trailingDigits t
    n != 0 && endsWithStr (dropRightStr t n) ".SFP #"
  else false

/-- `.*\.SFP #\d+ Temp$`. -/
def vetoSfpTemp (s : String) : Bool :=
  if endsWithStr s " Temp" then
    let t := dropRightStr s 5
    let n := trailingDigits t
    n != 0 && endsWithStr (dropRightStr t n) ".SFP #"
  else false

/-- `.*\.(volts|currents|counters|temps|fans)\.[^.]+$`: the
second-to-last dot-separated segment is a noisy word.  The leading
`.*\.` forces a dot before that word, i.e. at least three segments. -/
def vetoNoisy (s : String) : Bool :=
  match (splitDot s).reverse with
  | last :: sndLast :: _ :: _ => !last.isEmpty && noisyWords.contains sndLast
  | _ => false

/-- `any([_.match(path_str) for _ in VETO])` (line 130). -/
def veto (s : String) : Bool :=
  endsWithStr s "_I" ||
  vetoWords.any (fun w => endsWithStr s ("." ++ w)) ||
  containsSub s ".stringId" ||
  vetoFanCtrl s ||
  vetoSfpTxRx s ||
  vetoNoisy s ||
  vetoSfpTemp s ||
  startsWithStr s "_"

/-! ### The list branch of `dict_compare` (lines 132-134)

```
elif isinstance(v, list):
    if len(set(v) - set(b[k])) != 0 or len(set(b[k]) - set(v)) == 0:
        result.append(working_path.join('.'))
```

`set(v)` raises `TypeError` when `v` holds a dict or list (unhashable);
`set(b[k])` additionally iterates a dict as its keys and a string as
its characters, and raises `TypeError` on a non-iterable scalar.  When
the condition holds, `working_path.join('.')` raises `AttributeError`
(a Python list has no `join`).  Either exception escapes the call, so
the branch can only fail (`Except.error ()`) or contribute nothing. -/

/-- All elements scalar (hashable), or `none` (`set(v)` raises). -/
def allScalars : List J → Option (List Scalar)
  | [] => some []
  | .scalar s :: rest => (allScalars rest).map (s :: ·)
  | _ :: _ => none

/-- `set(x)` on an arbitrary value: list of its hashable elements, or
`none` when `set` raises. -/
def pyIterScalars : J → Option (List Scalar)
  | .list ws => allScalars ws
  | .map bs => some (bs.map (fun p => Scalar.str p.1))
  | .scalar (.str s) => some (s.data.map (fun c => Scalar.str (String.mk [c])))
  | .scalar _ => none

def pyMem (x : Scalar) (ys : List Scalar) : Bool := ys.any (pyEq x)

/-- `len(set(v) - set(w)) != 0 or len(set(w) - set(v)) == 0`. -/
def listCond (vs ws : List Scalar) : Bool :=
  vs.any (fun x => !pyMem x ws) || ws.all (fun y => pyMem y vs)

def listBranch (vs : List J) (w : J) : Except Unit (List String) :=
  match allScalars vs with
  | none => .error ()
  | some svs =>
    match pyIterScalars w with
    | none => .error ()
    | some sws => if listCond svs sws then .error () else .ok []

/-- Scalar branch comparison `v != b[k]` with `v` a scalar: values of
different Python types are unequal without error. -/
def scalarNeq (sv : Scalar) (w : J) : Bool :=
  match w with
  | .scalar sw => !pyEq sv sw
  | _ => true

/-- `for k in (set(b.keys()) - set(a.keys())): result.append(...)`
(lines 138-140).  Set iteration order is modelled as first-occurrence
order of `b`'s keys. -/
def addedKeys (path : List String) (as bs : List (String × J)) : List String :=
  (((bs.map Prod.fst).dedup).filter (fun k => (lookupJ as k).isNone)).map
    (fun k => joinPath (path ++ [k]))

/-! ### `dict_compare` (lines 115-141)

`a.items()` requires `a` to be a dict; when `b` is not a dict every
path through the body raises (`k not in b`, `b[k]`, or the final
`set(b.keys())`), so any call on a non-Map pair is `Except.error ()`.
Per key `k` of `a` (in insertion order):

* `k not in b` → report `prefix.k` (no veto consultation);
* `v` a dict → recurse (no veto consultation);
* vetoed path → skip;
* `v` a list → `listBranch` (error or nothing, see above);
* scalar → report `prefix.k` when `v != b[k]`.

Keys of `b` missing from `a` are appended unconditionally. -/

/-- The `for k, v in a.items()` loop: run `entry` on each pair in
order, concatenating the reported paths; a raised exception (an
`error`) aborts the remaining iterations. -/
def entriesLoop (entry : String → J → Except Unit (List String)) :
    List (String × J) → Except Unit (List String)
  | [] => .ok []
  | (k, v) :: rest =>
    match entry k v with
    | .error e => .error e
    | .ok hs =>
      match entriesLoop entry rest with
      | .error e => .error e
      | .ok ts => .ok (hs ++ ts)

/-- One iteration of the loop body of `dict_compare` (lines 123-137),
abstracted over the recursive call `recur`. -/
def entryResultF (recur : List String → J → J → Except Unit (List String))
    (path : List String) (bs : List (String × J)) (k : String) (v : J) :
    Except Unit (List String) :=
  match lookupJ bs k with
  | none => .ok [joinPath (path ++ [k])]
  | some w =>
    match v with
    | .map as2 => recur (path ++ [k]) (.map as2) w
    | .list vs => if veto (joinPath (path ++ [k])) then .ok [] else listBranch vs w
    | .scalar sv =>
      if veto (joinPath (path ++ [k])) then .ok []
      else .ok (if scalarNeq sv w then [joinPath (path ++ [k])] else [])

/-- `dict_compare`, with a structural fuel parameter standing for the
maximal recursion depth (each recursive call of the Python function
descends into a strict subtree, so any fuel exceeding the tree size is
never exhausted; see `dcF_fuel_irrelevant` and `dictCompare`). -/
def dcF : Nat → List String → J → J → Except Unit (List String)
  | 0, _, _, _ => .error ()
  | fuel + 1, path, a, b =>
    match a, b with
    | .map as, .map bs =>
      match entriesLoop
          (fun k v =>
            match lookupJ bs k with
            | none => .ok [joinPath (path ++ [k])]
            | some w =>
              match v with
              | .map as2 => dcF fuel (path ++ [k]) (.map as2) w
              | .list vs => if veto (joinPath (path ++ [k])) then .ok [] else listBranch vs w
              | .scalar sv =>
                if veto (joinPath (path ++ [k])) then .ok []
                else .ok (if scalarNeq sv w then [joinPath (path ++ [k])] else []))
          as with
      | .error e => .error e
      | .ok rs => .ok (rs ++ addedKeys path as bs)
    | _, _ => .error ()

mutual
/-- Size of a snapshot tree (used only to pick an adequate fuel). -/
def sizeJ : J → Nat
  | .map es => 1 + sizeEntries es
  | .list xs => 1 + sizeListJ xs
  | .scalar _ => 1

def sizeEntries : List (String × J) → Nat
  | [] => 0
  | (_, v) :: rest => 1 + sizeJ v + sizeEntries rest

def sizeListJ : List J → Nat
  | [] => 0
  | x :: rest => 1 + sizeJ x + sizeListJ rest
end

/-- `dict_compare(a, b, path)`: fuel `sizeJ a + 1` strictly dominates
the recursion depth (the `a` argument strictly shrinks at each
recursive call). -/
def dictCompare (path : List String) (a b : J) : Except Unit (List String) :=
  dcF (sizeJ a + 1) path a b

theorem dcF_succ (fuel : Nat) (path : List String) (as bs : List (String × J)) :
    dcF (fuel + 1) path (J.map as) (J.map bs) =
      match entriesLoop (entryResultF (dcF fuel) path bs) as with
      | .error e => .error e
      | .ok rs => .ok (rs ++ addedKeys path as bs) := rfl

/-- Walking nested maps by a key path (used to state claims about
nested locations). -/
def walk : J → List String → Option J
  | j, [] => some j
  | .map es, k :: ks =>
    match lookupJ es k with
    | some v => walk v ks
    | none => none
  | _, _ :: _ => none

/-! ### Well-formedness

Python dicts have unique keys.  For the veto/suppression claims we
additionally record that keys contain no dot (so that a dotted path
string determines its segment list; the source itself conflates the
two via `'.'.join`). -/

def dotFree (s : String) : Bool := s.data.all (fun c => c != '.')

def keyIn (k : String) : List String → Bool
  | [] => false
  | a :: rest => k == a || keyIn k rest

def nodupKeys : List String → Bool
  | [] => true
  | k :: ks => !keyIn k ks && nodupKeys ks

/-- Well-formed snapshots: every map in the tree has pairwise distinct,
dot-free keys (Python dicts cannot repeat keys; dot-free keys make a
dotted path string determine its segment list). -/
inductive WF : J → Prop where
  | map : ∀ es, (∀ p ∈ es, dotFree p.1 = true) →
      nodupKeys (es.map Prod.fst) = true →
      (∀ p ∈ es, WF p.2) → WF (J.map es)
  | list : ∀ xs, (∀ x ∈ xs, WF x) → WF (J.list xs)
  | scalar : ∀ s, WF (J.scalar s)

/-! ### `Processor.sample` (lines 70-84) -/

/-- Outcome of `requests.get(self.url)`: a transport failure
(`ConnectionError`) or a status code with a parsed body. -/
inductive FetchResult where
  | transportError : FetchResult
  | status : Nat → J → FetchResult

inductive LogLevel where
  | debug : LogLevel
  | warning : LogLevel
deriving DecidableEq

def maxSamples : Nat := 3

/-- `self.data = self.data[-self.max_samples:]` (line 84). -/
def listTail3 (l : List (Int × J)) : List (Int × J) :=
  l.drop (l.length - maxSamples)

/-- One call of `Processor.sample`, as a function of the transport
outcome: returns the new history and the level of the message logged.
A transport failure returns early (line 78), before the truncation. -/
def sampleStep (history : List (Int × J)) (t : Int) (r : FetchResult) :
    List (Int × J) × LogLevel :=
  match r with
  | .transportError => (history, .warning)
  | .status c body =>
    if 199 < c ∧ c < 300 then (listTail3 (history ++ [(t, body)]), .debug)
    else (listTail3 history, .warning)

/-! ### `Processor.compare` (lines 89-100) -/

/-- `samples = self.data[-2:]; if len(samples) != 2: return` then
`dict_compare(data_a, data_b)`.  The `return` is the empty result. -/
def procCompare (history : List (Int × J)) : Except Unit (List String) :=
  match history.drop (history.length - 2) with
  | [(_, a), (_, b)] => dictCompare [] a b
  | _ => .ok []

/-! ### Vendor detection, `Processor.__init__` (lines 51-61) -/

inductive Vendor where
  | megapixel : Vendor
  | brompton : Vendor
deriving DecidableEq

/-- Outcome of one `requests.get`: transport error or a status code. -/
abbrev ProbeResult := Except Unit Nat

/-- The probe sequence of `Processor.__init__` as a function of the two
possible responses.  Returns the committed vendor (or the construction
failure) together with whether the Brompton request was issued.

* The Megapixel request is unguarded: a transport error propagates
  before the Brompton URL is ever tried.
* `not 199 < res.status_code < 300` falls through to Brompton.
* For Brompton, `res.raise_for_status()` raises exactly for
  `400 <= status < 600`. -/
def vendorDetect (ra rb : ProbeResult) : Except Unit Vendor × Bool :=
  match ra with
  | .error _ => (.error (), false)
  | .ok s =>
    if 199 < s ∧ s < 300 then (.ok .megapixel, false)
    else
      match rb with
      | .error _ => (.error (), true)
      | .ok t => if 400 ≤ t ∧ t < 600 then (.error (), true) else (.ok .brompton, true)

/-- `main` (lines 179-186): hosts whose construction raised are skipped;
the polling set holds the successfully constructed processors. -/
def pollingSet (probes : List (ProbeResult × ProbeResult)) : List Vendor :=
  probes.filterMap (fun p => ((vendorDetect p.1 p.2).1).toOption)

/-! ### Display id, `Processor.__init__` (lines 62-66)

```
self.id = self.manu + " " + self.host
ip_parts = self.host.split(".")
if ip_parts[-1].isdigit():
    self.id = self.manu + " " + str(int(host[-1]) + 1)
```
-/

/-- `ip_parts[-1]`: the final dot-delimited segment. -/
def lastSegment (host : String) : String :=
  ((splitDot host).reverse).headD ""

/-- Python `str.isdigit` (ASCII digits; empty string is not a digit
string). -/
def pyIsDigit (s : String) : Bool :=
  !s.data.isEmpty && s.data.all Char.isDigit

/-- `host[-1]` (total model; only consulted when the digit test passed,
which forces the host to be nonempty). -/
def lastCharD (s : String) : Char :=
  s.data.reverse.headD ' '

/-- The `self.id` computed by `Processor.__init__`.  `int(host[-1])` is
the digit value of the single last character. -/
def displayId (manu host : String) : String :=
  if pyIsDigit (lastSegment host) then
    manu ++ " " ++ toString ((lastCharD host).toNat - '0'.toNat + 1)
  else manu ++ " " ++ host

/-! ## Claim C1 — identical snapshots

The testable property "for any two structurally identical snapshots
`compare` returns an empty change set" fails on the code: when the
identical snapshots contain a list value at a non-vetoed path, the
list-branch condition
`len(set(v) - set(b[k])) != 0 or len(set(b[k]) - set(v)) == 0`
is true (the second clause holds for equal sets), so the code executes
`working_path.join('.')`, which raises `AttributeError` — the
comparison crashes instead of returning an empty change set. -/

/-- C1: counter-evaluation.  On the structurally identical snapshots
`a = b` holding the single non-vetoed key `vals` with list value `[1]`,
`dict_compare` raises (modelled as `Except.error ()`) instead of
returning an empty change set. -/
theorem dictCompare_identical_list_crash :
    dictCompare [] (J.map [("vals", J.list [J.scalar (Scalar.num 1)])])
      (J.map [("vals", J.list [J.scalar (Scalar.num 1)])]) = .error () := rfl

/-! ## Claim C2 — list values compared as sets

The spec says a list value is reported changed exactly when the
symmetric difference of the two element sets is non-empty.  The code's
condition disagrees: for `a[k] = [1]`, `b[k] = [1, 2]` the symmetric
difference is `{2}` (non-empty), yet `set(v) - set(b[k])` is empty and
`set(b[k]) - set(v)` is non-empty, so the condition is false and
nothing is reported (and in every case where the condition is true the
`working_path.join('.')` call crashes instead of reporting). -/

/-- C2: counter-evaluation.  The lists `[1]` and `[1, 2]` have
non-empty symmetric difference, but `dict_compare` reports nothing. -/
theorem dictCompare_subset_list_unreported :
    dictCompare [] (J.map [("data", J.list [J.scalar (Scalar.num 1)])])
      (J.map [("data", J.list [J.scalar (Scalar.num 1), J.scalar (Scalar.num 2)])])
      = .ok [] := rfl

/-! ## Claim C8 — transport failure during sampling -/

/-- C8: a transport-level failure during sampling logs a warning,
leaves the history untouched (the truncation line is not even reached),
and returns a value rather than raising (`sampleStep` is total). -/
theorem sampleStep_transport_failure (h : List (Int × J)) (t : Int) :
    sampleStep h t FetchResult.transportError = (h, LogLevel.warning) := rfl

/-! ## Claim C9 — comparison is a no-op below two samples -/

/-- C9: with fewer than two retained samples, `Processor.compare`
returns early: empty result, no error. -/
theorem procCompare_coldstart (h : List (Int × J)) (hlen : h.length < 2) :
    procCompare h = .ok [] := by
  match h, hlen with
  | [], _ => rfl
  | [x], _ => rfl
  | a :: b :: t, hl => exact absurd hl (by simp)

/-- C9 witness: a single retained sample produces `ok []`. -/
theorem procCompare_coldstart_witness : procCompare [(0, J.map [])] = .ok [] :=
  procCompare_coldstart [(0, J.map [])] (by decide)

/-! ## Claim C3, counterexample part — two-segment noisy paths

The `.*\.(volts|currents|counters|temps|fans)\.[^.]+$` regex requires a
dot before the noisy word, so a two-segment path whose first segment is
the noisy word does not match and is reported when changed. -/

/-- C3: counterexample to the claim as stated.  The leaf path
`temps.fan1` has second-to-last segment `temps` in first position; the
claim says no change there ever appears in the output, but the code
reports it (and indeed no `VETO` pattern matches it). -/
theorem dictCompare_two_segment_noisy_reported :
    dictCompare [] (J.map [("temps", J.map [("fan1", J.scalar (Scalar.num 30))])])
        (J.map [("temps", J.map [("fan1", J.scalar (Scalar.num 45))])])
      = .ok ["temps.fan1"]
    ∧ veto "temps.fan1" = false := ⟨rfl, rfl⟩

/-! ## Claim C5, counterexample part — Map-vs-non-Map recursion -/

/-- C5: counterexample to the claim as stated.  Both snapshot roots are
Maps, the key `k` holds a Map in `a` but a Scalar in `b`; the code
still recurses (`isinstance(v, dict)` checks only `a`'s side) and the
recursive call fails (`b[k].items()` / `k not in b[k]` on a scalar). -/
theorem dictCompare_map_scalar_mismatch_error :
    dictCompare [] (J.map [("k", J.map [("x", J.scalar (Scalar.num 1))])])
      (J.map [("k", J.scalar (Scalar.num 2))]) = .error () := rfl

/-! ## Claim C6 — the sample window -/

theorem listTail3_length_le (l : List (Int × J)) : (listTail3 l).length ≤ 3 := by
  simp only [listTail3, maxSamples, List.length_drop]
  omega

theorem listTail3_append (l : List (Int × J)) (x : Int × J) :
    listTail3 (l ++ [x]) = l.drop (l.length - 2) ++ [x] := by
  simp only [listTail3, maxSamples, List.length_append, List.length_cons,
    List.length_nil]
  rw [show l.length + (0 + 1) - 3 = l.length - 2 by omega,
    List.drop_append_of_le_length (by omega)]

theorem listTail3_last_three (h : List (Int × J)) (x y z : Int × J) :
    listTail3 (listTail3 (listTail3 (h ++ [x]) ++ [y]) ++ [z]) = [x, y, z] := by
  obtain ⟨d, hd, hdl⟩ : ∃ d, h.drop (h.length - 2) = d ∧ d.length ≤ 2 :=
    ⟨_, rfl, by simp only [List.length_drop]; omega⟩
  rw [listTail3_append h x, hd]
  rcases d with _ | ⟨a, _ | ⟨b, _ | ⟨c, t⟩⟩⟩
  · rfl
  · rfl
  · rfl
  · simp only [List.length_cons] at hdl; omega

theorem sampleStep_success (h : List (Int × J)) (t : Int) (body : J) :
    (sampleStep h t (.status 200 body)).1 = listTail3 (h ++ [(t, body)]) := by
  norm_num [sampleStep]

/-- C6: the history is a bounded window.  Starting from the empty
history of `Processor.__init__`, any number of successful samples
leaves at most `maxSamples = 3` entries; and five successful appends
from any state leave exactly the last three appended samples, in their
original relative order. -/
theorem sampleWindow_bound_and_last_three :
    (∀ xs : List (Int × J),
      (xs.foldl (fun h p => (sampleStep h p.1 (FetchResult.status 200 p.2)).1)
        []).length ≤ 3)
    ∧ ∀ (h : List (Int × J)) (p1 p2 p3 p4 p5 : Int × J),
      [p1, p2, p3, p4, p5].foldl
          (fun h p => (sampleStep h p.1 (FetchResult.status 200 p.2)).1) h
        = [p3, p4, p5] := by
  constructor
  · intro xs
    suffices hgen : ∀ (xs acc : List (Int × J)), acc.length ≤ 3 →
        (xs.foldl (fun h p => (sampleStep h p.1 (FetchResult.status 200 p.2)).1)
          acc).length ≤ 3 by
      exact hgen xs [] (by simp)
    intro xs
    induction xs with
    | nil => intro acc hacc; simpa using hacc
    | cons x rest ih =>
      intro acc hacc
      simp only [List.foldl_cons]
      exact ih _ (by rw [sampleStep_success]; exact listTail3_length_le _)
  · intro h p1 p2 p3 p4 p5
    simp only [List.foldl_cons, List.foldl_nil, sampleStep_success]
    exact listTail3_last_three _ p3 p4 p5

/-! ## Claim C7 — vendor detection -/

/-- C7: counterexample to the claim as stated.  The VendorA probe fails
(with a transport error) and the VendorB probe would succeed, yet the
vendor is not VendorB: construction fails before the VendorB request is
even issued (`requests.get` of the Megapixel URL is unguarded). -/
theorem vendorDetect_transport_then_ok :
    vendorDetect (.error ()) (.ok 200) = (.error (), false) := rfl

/-- C7 (amended): the full case analysis of the probe sequence.  A 2xx
VendorA status commits Megapixel and issues no VendorB request; a
non-2xx VendorA *status* followed by a VendorB response that
`raise_for_status` accepts commits Brompton; a non-2xx VendorA status
followed by a VendorB transport error or a 400-599 VendorB status
fails construction; a VendorA *transport error* fails construction
with no VendorB request issued; and a failed construction leaves the
host out of the polling set. -/
theorem vendorDetect_cases (ra rb : ProbeResult) :
    (∀ s, ra = .ok s → 199 < s → s < 300 →
      vendorDetect ra rb = (.ok .megapixel, false))
    ∧ (∀ s t, ra = .ok s → ¬(199 < s ∧ s < 300) → rb = .ok t →
        ¬(400 ≤ t ∧ t < 600) → vendorDetect ra rb = (.ok .brompton, true))
    ∧ (∀ s, ra = .ok s → ¬(199 < s ∧ s < 300) →
        (rb = .error () ∨ ∃ t, rb = .ok t ∧ 400 ≤ t ∧ t < 600) →
        vendorDetect ra rb = (.error (), true))
    ∧ (ra = .error () → vendorDetect ra rb = (.error (), false))
    ∧ ((vendorDetect ra rb).1 = .error () → pollingSet [(ra, rb)] = []) := by
  refine ⟨?_, ?_, ?_, ?_, ?_⟩
  · intro s hs h1 h2
    subst hs
    simp [vendorDetect, h1, h2]
  · intro s t hs hns ht hnt
    subst hs; subst ht
    simp [vendorDetect, hns, hnt]
  · intro s hs hns hfail
    subst hs
    rcases hfail with he | ⟨t, ht, h4⟩
    · subst he; simp [vendorDetect, hns]
    · subst ht; simp [vendorDetect, hns, h4]
  · intro he; subst he; rfl
  · intro herr
    simp only [pollingSet, List.filterMap]
    rw [herr]
    rfl

/-- C7 witness: a concrete instance of the first case. -/
theorem vendorDetect_cases_witness :
    vendorDetect (.ok 204) (.error ()) = (.ok .megapixel, false) :=
  (vendorDetect_cases (.ok 204) (.error ())).1 204 rfl (by decide) (by decide)

/-! ## Claim C10 — displayId -/

theorem headD_reverse (l : List Char) (d : Char) :
    l.reverse.headD d = l.getLastD d := by
  induction l using List.reverseRecOn with
  | nil => rfl
  | append_singleton as a ih => simp [List.getLastD_concat]

/-- C10: the display id.  If the final dot-delimited segment of the
address is a non-empty run of digits, the id is the vendor name, a
space, and the decimal rendering of (digit value of the last character
of the whole address) + 1; otherwise it is the vendor name, a space,
and the address itself. -/
theorem displayId_spec (manu host : String) :
    ((lastSegment host).data ≠ [] →
      (∀ c ∈ (lastSegment host).data, c.isDigit = true) →
      displayId manu host =
        manu ++ " " ++ toString ((host.data.getLastD ' ').toNat - '0'.toNat + 1))
    ∧ (((lastSegment host).data = [] ∨
        ∃ c ∈ (lastSegment host).data, c.isDigit = false) →
      displayId manu host = manu ++ " " ++ host) := by
  constructor
  · intro h1 h2
    have hd : pyIsDigit (lastSegment host) = true := by
      unfold pyIsDigit
      rw [Bool.and_eq_true, List.all_eq_true]
      exact ⟨by simpa using h1, h2⟩
    unfold displayId
    rw [if_pos hd]
    unfold lastCharD
    rw [headD_reverse]
  · intro hcase
    have hd : pyIsDigit (lastSegment host) = false := by
      unfold pyIsDigit
      rcases hcase with he | ⟨c, hc, hcd⟩
      · simp [he]
      · have : (lastSegment host).data.all Char.isDigit = false := by
          rw [List.all_eq_false]
          exact ⟨c, hc, by simp [hcd]⟩
        simp [this]
    unfold displayId
    rw [if_neg (by simp [hd])]

/-- C10 witness: `10.0.1.9` ends in the all-digit segment `9`; the id
uses only the last character: `int("9") + 1 = 10`. -/
theorem displayId_spec_witness :
    displayId "Megapixel" "10.0.1.9" = "Megapixel 10" := by
  have h := (displayId_spec "Megapixel" "10.0.1.9").1 (by decide) (by decide)
  rw [h]
  rfl

/-! ## Helper lemmas on lookup, well-formedness, walks -/

theorem lookupJ_mem {l : List (String × J)} {k : String} {v : J}
    (h : lookupJ l k = some v) : (k, v) ∈ l := by
  induction l with
  | nil => simp [lookupJ] at h
  | cons hd rest ih =>
    obtain ⟨k0, v0⟩ := hd
    by_cases hk : k0 == k
    · simp only [lookupJ, hk, if_pos] at h
      have : k0 = k := by simpa using hk
      subst this
      injection h with h
      subst h
      exact List.Mem.head _
    · simp only [lookupJ, hk] at h
      simp only [Bool.false_eq_true, if_false] at h
      exact List.Mem.tail _ (ih h)

theorem keyIn_true_of_mem {l : List String} {k : String} (h : k ∈ l) :
    keyIn k l = true := by
  induction l with
  | nil => cases h
  | cons a rest ih =>
    rcases List.mem_cons.mp h with rfl | hm
    · simp [keyIn]
    · simp [keyIn, ih hm]

theorem mem_eq_of_lookup_nodup {l : List (String × J)} {k : String} {v v' : J}
    (hmem : (k, v) ∈ l) (hnd : nodupKeys (l.map Prod.fst) = true)
    (hlk : lookupJ l k = some v') : v = v' := by
  induction l with
  | nil => cases hmem
  | cons hd rest ih =>
    obtain ⟨k0, v0⟩ := hd
    simp only [List.map_cons, nodupKeys, Bool.and_eq_true] at hnd
    rcases List.mem_cons.mp hmem with heq | hm
    · have hk0 : k0 = k := (congrArg Prod.fst heq).symm
      have hv0 : v0 = v := (congrArg Prod.snd heq).symm
      subst hk0
      subst hv0
      simp only [lookupJ, beq_self_eq_true, if_true] at hlk
      exact Option.some.inj hlk
    · by_cases hk : k0 = k
      · subst hk
        exfalso
        have h1 : k0 ∈ rest.map Prod.fst :=
          List.mem_map_of_mem Prod.fst hm
        have h2 := keyIn_true_of_mem h1
        simp [h2] at hnd
      · have hk' : (k0 == k) = false := by simpa using hk
        simp only [lookupJ, hk', Bool.false_eq_true, if_false] at hlk
        exact ih hm hnd.2 hlk

theorem WF_map_entry {es : List (String × J)} {k : String} {v : J}
    (h : WF (J.map es)) (hmem : (k, v) ∈ es) : dotFree k = true ∧ WF v := by
  cases h with
  | map _ hdf hnd hwf => exact ⟨hdf (k, v) hmem, hwf (k, v) hmem⟩

theorem WF_map_nodup {es : List (String × J)} (h : WF (J.map es)) :
    nodupKeys (es.map Prod.fst) = true := by
  cases h with
  | map _ hdf hnd hwf => exact hnd

theorem WF_lookup {bs : List (String × J)} {k : String} {w : J}
    (h : WF (J.map bs)) (hl : lookupJ bs k = some w) : WF w :=
  (WF_map_entry h (lookupJ_mem hl)).2

theorem walk_keys_dotFree : ∀ (ks : List String) (a j : J), WF a →
    walk a ks = some j → (∀ s ∈ ks, dotFree s = true) ∧ WF j := by
  intro ks
  induction ks with
  | nil =>
    intro a j hwf hw
    simp only [walk] at hw
    injection hw with hw
    subst hw
    exact ⟨by simp, hwf⟩
  | cons k1 ks ih =>
    intro a j hwf hw
    cases a with
    | map es =>
      simp only [walk] at hw
      cases hlk : lookupJ es k1 with
      | none => rw [hlk] at hw; cases hw
      | some v1 =>
        rw [hlk] at hw
        obtain ⟨hdf, hwfv⟩ := WF_map_entry hwf (lookupJ_mem hlk)
        obtain ⟨hks, hj⟩ := ih v1 j hwfv hw
        refine ⟨?_, hj⟩
        intro s hs
        rcases List.mem_cons.mp hs with rfl | hm
        · exact hdf
        · exact hks s hm
    | list xs => cases hw
    | scalar s => cases hw

/-! ## Helper lemmas on `entriesLoop`, `entryResultF`, `addedKeys` -/

theorem entriesLoop_entry_error
    {f : String → J → Except Unit (List String)} {entries : List (String × J)}
    {k : String} {v : J} (hmem : (k, v) ∈ entries) (hf : f k v = .error ()) :
    entriesLoop f entries = .error () := by
  induction entries with
  | nil => cases hmem
  | cons hd rest ih =>
    obtain ⟨k0, v0⟩ := hd
    rcases List.mem_cons.mp hmem with heq | hm
    · injection heq with h1 h2
      subst h1; subst h2
      simp [entriesLoop, hf]
    · simp only [entriesLoop]
      cases hh : f k0 v0 with
      | error e => rfl
      | ok hs => rw [ih hm]

theorem entriesLoop_entry_ok
    {f : String → J → Except Unit (List String)} {entries : List (String × J)}
    {k : String} {v : J} {rs : List String} (hmem : (k, v) ∈ entries)
    (hok : entriesLoop f entries = .ok rs) :
    ∃ hs, f k v = .ok hs ∧ ∀ x ∈ hs, x ∈ rs := by
  induction entries generalizing rs with
  | nil => cases hmem
  | cons hd rest ih =>
    obtain ⟨k0, v0⟩ := hd
    simp only [entriesLoop] at hok
    cases hh : f k0 v0 with
    | error e => rw [hh] at hok; cases hok
    | ok hs0 =>
      rw [hh] at hok
      cases ht : entriesLoop f rest with
      | error e => rw [ht] at hok; cases hok
      | ok ts =>
        rw [ht] at hok
        injection hok with hok
        subst hok
        rcases List.mem_cons.mp hmem with heq | hm
        · injection heq with h1 h2
          subst h1; subst h2
          exact ⟨hs0, hh, fun x hx => List.mem_append_left _ hx⟩
        · obtain ⟨hs, hf, hsub⟩ := ih hm ht
          exact ⟨hs, hf, fun x hx => List.mem_append_right _ (hsub x hx)⟩

theorem entriesLoop_shape
    {f : String → J → Except Unit (List String)} {entries : List (String × J)}
    {rs : List String} {x : String} (hok : entriesLoop f entries = .ok rs)
    (hx : x ∈ rs) : ∃ k v hs, (k, v) ∈ entries ∧ f k v = .ok hs ∧ x ∈ hs := by
  induction entries generalizing rs with
  | nil =>
    simp only [entriesLoop] at hok
    injection hok with hok
    subst hok
    cases hx
  | cons hd rest ih =>
    obtain ⟨k0, v0⟩ := hd
    simp only [entriesLoop] at hok
    cases hh : f k0 v0 with
    | error e => rw [hh] at hok; cases hok
    | ok hs0 =>
      rw [hh] at hok
      cases ht : entriesLoop f rest with
      | error e => rw [ht] at hok; cases hok
      | ok ts =>
        rw [ht] at hok
        injection hok with hok
        subst hok
        rcases List.mem_append.mp hx with hx0 | hxt
        · exact ⟨k0, v0, hs0, List.Mem.head _, hh, hx0⟩
        · obtain ⟨k, v, hs, hm, hf, hxs⟩ := ih ht hxt
          exact ⟨k, v, hs, List.Mem.tail _ hm, hf, hxs⟩

theorem listBranch_ok {vs : List J} {w : J} {hs : List String}
    (h : listBranch vs w = .ok hs) : hs = [] := by
  unfold listBranch at h
  cases hsv : allScalars vs with
  | none => simp [hsv] at h
  | some svs =>
    simp only [hsv] at h
    cases hsw : pyIterScalars w with
    | none => simp [hsw] at h
    | some sws =>
      simp only [hsw] at h
      by_cases hc : listCond svs sws = true
      · simp [if_pos hc] at h
      · simp only [if_neg hc] at h
        injection h with h
        exact h.symm

theorem entryResultF_ok_cases
    {recur : List String → J → J → Except Unit (List String)}
    {path : List String} {bs : List (String × J)} {k : String} {v : J}
    {hs : List String} (h : entryResultF recur path bs k v = .ok hs) :
    (lookupJ bs k = none ∧ hs = [joinPath (path ++ [k])])
    ∨ (∃ w as2, lookupJ bs k = some w ∧ v = J.map as2 ∧
        recur (path ++ [k]) (J.map as2) w = .ok hs)
    ∨ (∃ w, lookupJ bs k = some w ∧ v.isMap = false ∧
        veto (joinPath (path ++ [k])) = true ∧ hs = [])
    ∨ (∃ w vs, lookupJ bs k = some w ∧ v = J.list vs ∧
        veto (joinPath (path ++ [k])) = false ∧ hs = [])
    ∨ (∃ w sv, lookupJ bs k = some w ∧ v = J.scalar sv ∧
        veto (joinPath (path ++ [k])) = false ∧
        hs = if scalarNeq sv w then [joinPath (path ++ [k])] else []) := by
  cases hlk : lookupJ bs k with
  | none =>
    simp only [entryResultF, hlk] at h
    injection h with h
    exact Or.inl ⟨rfl, h.symm⟩
  | some w =>
    cases v with
    | map as2 =>
      simp only [entryResultF, hlk] at h
      exact Or.inr (Or.inl ⟨w, as2, rfl, rfl, h⟩)
    | list vs =>
      simp only [entryResultF, hlk] at h
      by_cases hv : veto (joinPath (path ++ [k])) = true
      · rw [if_pos hv] at h
        injection h with h
        exact Or.inr (Or.inr (Or.inl ⟨w, rfl, rfl, hv, h.symm⟩))
      · rw [if_neg hv] at h
        have := listBranch_ok h
        exact Or.inr (Or.inr (Or.inr (Or.inl
          ⟨w, vs, rfl, rfl, by simpa using hv, this⟩)))
    | scalar sv =>
      simp only [entryResultF, hlk] at h
      by_cases hv : veto (joinPath (path ++ [k])) = true
      · rw [if_pos hv] at h
        injection h with h
        exact Or.inr (Or.inr (Or.inl ⟨w, rfl, rfl, hv, h.symm⟩))
      · rw [if_neg hv] at h
        injection h with h
        exact Or.inr (Or.inr (Or.inr (Or.inr
          ⟨w, sv, rfl, rfl, by simpa using hv, h.symm⟩)))

theorem addedKeys_mem {path : List String} {as bs : List (String × J)} {k : String}
    (hk : k ∈ bs.map Prod.fst) (ha : lookupJ as k = none) :
    joinPath (path ++ [k]) ∈ addedKeys path as bs := by
  unfold addedKeys
  apply List.mem_map_of_mem
  rw [List.mem_filter]
  exact ⟨List.mem_dedup.mpr hk, by simp [ha]⟩

theorem addedKeys_shape {path : List String} {as bs : List (String × J)} {x : String}
    (hx : x ∈ addedKeys path as bs) :
    ∃ k, k ∈ bs.map Prod.fst ∧ lookupJ as k = none ∧ x = joinPath (path ++ [k]) := by
  unfold addedKeys at hx
  obtain ⟨k, hk, hxe⟩ := List.mem_map.mp hx
  rw [List.mem_filter] at hk
  refine ⟨k, List.mem_dedup.mp hk.1, ?_, hxe.symm⟩
  have := hk.2
  simpa [Option.isNone_iff_eq_none] using this

/-! ## Helper lemmas on `dcF` -/

theorem dcF_zero (path : List String) (a b : J) : dcF 0 path a b = .error () := rfl

theorem dcF_nonmap (fuel : Nat) (path : List String) (a b : J)
    (h : a.isMap = false ∨ b.isMap = false) : dcF fuel path a b = .error () := by
  cases fuel with
  | zero => rfl
  | succ fuel =>
    cases a <;> cases b <;>
      first
      | rfl
      | (exfalso; simp [J.isMap] at h)

/-! ## Injectivity of dotted path strings over dot-free segments -/

theorem strExt {s t : String} (h : s.data = t.data) : s = t := by
  cases s; cases t; exact congrArg String.mk h

theorem dotFree_iff {s : String} : dotFree s = true ↔ ('.' : Char) ∉ s.data := by
  unfold dotFree
  rw [List.all_eq_true]
  simp only [bne_iff_ne, ne_eq]
  constructor
  · intro h hd
    exact (h '.' hd) rfl
  · intro h c hc hceq
    exact h (hceq ▸ hc)

theorem noDotSplit {xs ys r1 r2 : List Char}
    (hx : ('.' : Char) ∉ xs) (hy : ('.' : Char) ∉ ys)
    (h : xs ++ '.' :: r1 = ys ++ '.' :: r2) : xs = ys ∧ r1 = r2 := by
  induction xs generalizing ys with
  | nil =>
    cases ys with
    | nil =>
      simp only [List.nil_append] at h
      injection h with h1 h2
      exact ⟨rfl, h2⟩
    | cons b ys' =>
      simp only [List.nil_append, List.cons_append] at h
      injection h with h1 h2
      exact absurd (h1 ▸ List.Mem.head ys') hy
  | cons a xs' ih =>
    cases ys with
    | nil =>
      simp only [List.nil_append, List.cons_append] at h
      injection h with h1 h2
      exact absurd (h1 ▸ List.Mem.head xs') hx
    | cons b ys' =>
      simp only [List.cons_append] at h
      injection h with h1 h2
      subst h1
      have hx' : ('.' : Char) ∉ xs' := fun hm => hx (List.Mem.tail _ hm)
      have hy' : ('.' : Char) ∉ ys' := fun hm => hy (List.Mem.tail _ hm)
      obtain ⟨e1, e2⟩ := ih hx' hy' h2
      exact ⟨by rw [e1], e2⟩

theorem joinPath_single (a : String) : joinPath [a] = a := rfl

theorem joinPath_cons_cons (a b : String) (l : List String) :
    joinPath (a :: b :: l) = a ++ "." ++ joinPath (b :: l) := by
  simp [joinPath]

theorem joinPath_cons_data (a b : String) (l : List String) :
    (joinPath (a :: b :: l)).data = a.data ++ '.' :: (joinPath (b :: l)).data := by
  rw [joinPath_cons_cons, String.data_append, String.data_append]
  simp

theorem joinPath_inj : ∀ (l1 l2 : List String), l1 ≠ [] → l2 ≠ [] →
    (∀ s ∈ l1, dotFree s = true) → (∀ s ∈ l2, dotFree s = true) →
    joinPath l1 = joinPath l2 → l1 = l2 := by
  intro l1
  induction l1 with
  | nil => intro l2 h; exact absurd rfl h
  | cons a l1' ih =>
    intro l2 _ hne2 hdf1 hdf2 heq
    cases l2 with
    | nil => exact absurd rfl hne2
    | cons b l2' =>
      cases l1' with
      | nil =>
        cases l2' with
        | nil =>
          rw [joinPath_single, joinPath_single] at heq
          rw [heq]
        | cons b2 l2'' =>
          exfalso
          have hdata : a.data = b.data ++ '.' :: (joinPath (b2 :: l2'')).data := by
            rw [joinPath_single] at heq
            rw [heq, joinPath_cons_data]
          have hdot : ('.' : Char) ∈ a.data := by
            rw [hdata]
            exact List.mem_append_right _ (List.Mem.head _)
          exact (dotFree_iff.mp (hdf1 a (List.Mem.head _))) hdot
      | cons a2 l1'' =>
        cases l2' with
        | nil =>
          exfalso
          have hdata : b.data = a.data ++ '.' :: (joinPath (a2 :: l1'')).data := by
            rw [joinPath_single] at heq
            rw [← heq, joinPath_cons_data]
          have hdot : ('.' : Char) ∈ b.data := by
            rw [hdata]
            exact List.mem_append_right _ (List.Mem.head _)
          exact (dotFree_iff.mp (hdf2 b (List.Mem.head _))) hdot
        | cons b2 l2'' =>
          have hd : a.data ++ '.' :: (joinPath (a2 :: l1'')).data
              = b.data ++ '.' :: (joinPath (b2 :: l2'')).data := by
            have hc := congrArg String.data heq
            rwa [joinPath_cons_data, joinPath_cons_data] at hc
          have hxa := dotFree_iff.mp (hdf1 a (List.Mem.head _))
          have hxb := dotFree_iff.mp (hdf2 b (List.Mem.head _))
          obtain ⟨e1, e2⟩ := noDotSplit hxa hxb hd
          have hab : a = b := strExt e1
          have hteq : (a2 :: l1'') = (b2 :: l2'') :=
            ih (b2 :: l2'') (by simp) (by simp)
              (fun s hs => hdf1 s (List.Mem.tail _ hs))
              (fun s hs => hdf2 s (List.Mem.tail _ hs)) (strExt e2)
          rw [hab, hteq]

theorem joinPath_append_inj {path l1 l2 : List String}
    (hp : ∀ s ∈ path, dotFree s = true)
    (h1 : ∀ s ∈ l1, dotFree s = true) (h2 : ∀ s ∈ l2, dotFree s = true)
    (hne1 : l1 ≠ []) (hne2 : l2 ≠ [])
    (heq : joinPath (path ++ l1) = joinPath (path ++ l2)) : l1 = l2 := by
  have hj := joinPath_inj (path ++ l1) (path ++ l2)
    (by simp [hne1]) (by simp [hne2])
    (fun s hs => (List.mem_append.mp hs).elim (hp s) (h1 s))
    (fun s hs => (List.mem_append.mp hs).elim (hp s) (h2 s)) heq
  exact List.append_cancel_left hj

/-! ## Shape of successful `dcF` results

Every reported path string is the dotted join of the prefix with a
non-empty sequence of (dot-free) keys. -/

theorem dcF_shape : ∀ (fuel : Nat) (path : List String) (a b : J)
    (res : List String) (x : String), WF a → WF b →
    dcF fuel path a b = .ok res → x ∈ res →
    ∃ ks, ks ≠ [] ∧ (∀ s ∈ ks, dotFree s = true) ∧ x = joinPath (path ++ ks) := by
  intro fuel
  induction fuel with
  | zero =>
    intro path a b res x _ _ hok
    rw [dcF_zero] at hok
    cases hok
  | succ fuel ih =>
    intro path a b res x hwa hwb hok hx
    cases a with
    | list xs =>
      rw [dcF_nonmap (fuel + 1) path (J.list xs) b (Or.inl rfl)] at hok
      cases hok
    | scalar s =>
      rw [dcF_nonmap (fuel + 1) path (J.scalar s) b (Or.inl rfl)] at hok
      cases hok
    | map as =>
      cases b with
      | list xs =>
        rw [dcF_nonmap (fuel + 1) path (J.map as) (J.list xs) (Or.inr rfl)] at hok
        cases hok
      | scalar s =>
        rw [dcF_nonmap (fuel + 1) path (J.map as) (J.scalar s) (Or.inr rfl)] at hok
        cases hok
      | map bs =>
        rw [dcF_succ] at hok
        cases hloop : entriesLoop (entryResultF (dcF fuel) path bs) as with
        | error e => rw [hloop] at hok; cases hok
        | ok rs =>
          rw [hloop] at hok
          injection hok with hok
          subst hok
          rcases List.mem_append.mp hx with hxr | hxa
          · obtain ⟨k, v, hs, hmem, hf, hxhs⟩ := entriesLoop_shape hloop hxr
            obtain ⟨hdfk, hwfv⟩ := WF_map_entry hwa hmem
            rcases entryResultF_ok_cases hf with
              ⟨hnone, hhs⟩ | ⟨w, as2, hlkb, hveq, hrec⟩ | ⟨w, hlkb, hvm, hveto, hhs⟩ |
              ⟨w, vs, hlkb, hveq, hveto, hhs⟩ | ⟨w, sv, hlkb, hveq, hveto, hhs⟩
            · rw [hhs] at hxhs
              refine ⟨[k], by simp, ?_, List.mem_singleton.mp hxhs⟩
              intro s hs'
              rw [List.mem_singleton] at hs'
              subst hs'
              exact hdfk
            · subst hveq
              have hwfw : WF w := WF_lookup hwb hlkb
              obtain ⟨ks', hne, hdf, hxeq⟩ :=
                ih (path ++ [k]) (J.map as2) w hs x hwfv hwfw hrec hxhs
              refine ⟨k :: ks', by simp, ?_, ?_⟩
              · intro s hs'
                rcases List.mem_cons.mp hs' with rfl | hm
                · exact hdfk
                · exact hdf s hm
              · rw [hxeq]
                congr 1
                simp [List.append_assoc]
            · rw [hhs] at hxhs
              cases hxhs
            · rw [hhs] at hxhs
              cases hxhs
            · by_cases hneq : scalarNeq sv w = true
              · rw [hhs, if_pos hneq] at hxhs
                refine ⟨[k], by simp, ?_, List.mem_singleton.mp hxhs⟩
                intro s hs'
                rw [List.mem_singleton] at hs'
                subst hs'
                exact hdfk
              · rw [hhs, if_neg hneq] at hxhs
                cases hxhs
          · obtain ⟨k, hkb, hlka, hxeq⟩ := addedKeys_shape hxa
            obtain ⟨⟨k1, v1⟩, hpmem, hpk⟩ := List.mem_map.mp hkb
            cases hpk
            obtain ⟨hdfk, _⟩ := WF_map_entry hwb hpmem
            refine ⟨[k1], by simp, ?_, hxeq⟩
            intro s hs'
            rw [List.mem_singleton] at hs'
            subst hs'
            exact hdfk

/-! ## Claim C5 — recursion on Map-vs-non-Map pairs -/

theorem dcF_mismatch_error (fuel : Nat) (path : List String)
    (as bs : List (String × J)) (k : String) (es : List (String × J)) (w : J)
    (hmem : (k, J.map es) ∈ as) (hlk : lookupJ bs k = some w)
    (hwm : w.isMap = false) :
    dcF fuel path (J.map as) (J.map bs) = .error () := by
  cases fuel with
  | zero => rfl
  | succ fuel =>
    rw [dcF_succ]
    have hf : entryResultF (dcF fuel) path bs k (J.map es) = .error () := by
      simp only [entryResultF, hlk]
      exact dcF_nonmap fuel (path ++ [k]) (J.map es) w (Or.inr hwm)
    rw [entriesLoop_entry_error hmem hf]

/-- C5 (amended): the recursion decision looks only at `a`'s side.
Whenever some key of `a` holds a Map while the same key in `b` holds a
non-Map value, `dict_compare` recurses into that pair anyway and the
recursive call raises, so the whole comparison fails — the claimed
"recursive calls are only made on Map-vs-Map pairs, so compare
completes without error" does not hold. -/
theorem dictCompare_mismatch_errors (path : List String)
    (as bs : List (String × J)) (k : String) (es : List (String × J)) (w : J)
    (hmem : (k, J.map es) ∈ as) (hlk : lookupJ bs k = some w)
    (hwm : w.isMap = false) :
    dictCompare path (J.map as) (J.map bs) = .error () :=
  dcF_mismatch_error _ path as bs k es w hmem hlk hwm

/-- C5 witness: a concrete Map-vs-Scalar mismatch fails the compare. -/
theorem dictCompare_mismatch_errors_witness :
    dictCompare [] (J.map [("k", J.map [])])
      (J.map [("k", J.scalar (Scalar.num 2))]) = .error () :=
  dictCompare_mismatch_errors [] _ _ "k" [] (J.scalar (Scalar.num 2))
    (List.Mem.head _) rfl rfl

/-! ## Claim C4 — one-sided keys are always reported -/

theorem dcF_one_sided : ∀ (ks : List String) (fuel : Nat) (path : List String)
    (as bs sa sb : List (String × J)) (res : List String) (k : String),
    dcF fuel path (J.map as) (J.map bs) = .ok res →
    walk (J.map as) ks = some (J.map sa) →
    walk (J.map bs) ks = some (J.map sb) →
    ((lookupJ sa k).isSome ∧ lookupJ sb k = none ∨
      lookupJ sa k = none ∧ (lookupJ sb k).isSome) →
    joinPath (path ++ ks ++ [k]) ∈ res := by
  intro ks
  induction ks with
  | nil =>
    intro fuel path as bs sa sb res k hok hwa hwb hcase
    simp only [walk] at hwa hwb
    injection hwa with hwa
    injection hwb with hwb
    injection hwa with hwa
    injection hwb with hwb
    subst hwa
    subst hwb
    cases fuel with
    | zero => rw [dcF_zero] at hok; cases hok
    | succ fuel =>
      rw [dcF_succ] at hok
      cases hloop : entriesLoop (entryResultF (dcF fuel) path bs) as with
      | error e => rw [hloop] at hok; cases hok
      | ok rs =>
        rw [hloop] at hok
        injection hok with hok
        subst hok
        simp only [List.append_nil]
        rcases hcase with ⟨hsome, hnone⟩ | ⟨hnone, hsome⟩
        · obtain ⟨v, hv⟩ := Option.isSome_iff_exists.mp hsome
          have hmem := lookupJ_mem hv
          obtain ⟨hs, hf, hsub⟩ := entriesLoop_entry_ok hmem hloop
          have hfe : entryResultF (dcF fuel) path bs k v
              = .ok [joinPath (path ++ [k])] := by
            simp only [entryResultF, hnone]
          rw [hfe] at hf
          injection hf with hf
          subst hf
          exact List.mem_append_left _ (hsub _ (List.Mem.head _))
        · apply List.mem_append_right
          obtain ⟨w, hw⟩ := Option.isSome_iff_exists.mp hsome
          exact addedKeys_mem (List.mem_map_of_mem Prod.fst (lookupJ_mem hw)) hnone
  | cons k1 ks ih =>
    intro fuel path as bs sa sb res k hok hwa hwb hcase
    simp only [walk] at hwa hwb
    cases hlka : lookupJ as k1 with
    | none => rw [hlka] at hwa; cases hwa
    | some v1 =>
      rw [hlka] at hwa
      cases hlkb : lookupJ bs k1 with
      | none => rw [hlkb] at hwb; cases hwb
      | some w1 =>
        rw [hlkb] at hwb
        obtain ⟨sa1, hv1⟩ : ∃ sa1, v1 = J.map sa1 := by
          cases v1 with
          | map sa1 => exact ⟨sa1, rfl⟩
          | list xs =>
            cases ks with
            | nil => simp [walk] at hwa
            | cons k2 ks' => simp [walk] at hwa
          | scalar s =>
            cases ks with
            | nil => simp [walk] at hwa
            | cons k2 ks' => simp [walk] at hwa
        obtain ⟨sb1, hw1⟩ : ∃ sb1, w1 = J.map sb1 := by
          cases w1 with
          | map sb1 => exact ⟨sb1, rfl⟩
          | list xs =>
            cases ks with
            | nil => simp [walk] at hwb
            | cons k2 ks' => simp [walk] at hwb
          | scalar s =>
            cases ks with
            | nil => simp [walk] at hwb
            | cons k2 ks' => simp [walk] at hwb
        subst hv1
        subst hw1
        cases fuel with
        | zero => rw [dcF_zero] at hok; cases hok
        | succ fuel =>
          rw [dcF_succ] at hok
          cases hloop : entriesLoop (entryResultF (dcF fuel) path bs) as with
          | error e => rw [hloop] at hok; cases hok
          | ok rs =>
            rw [hloop] at hok
            injection hok with hok
            subst hok
            obtain ⟨hs, hf, hsub⟩ := entriesLoop_entry_ok (lookupJ_mem hlka) hloop
            have hfe : entryResultF (dcF fuel) path bs k1 (J.map sa1)
                = dcF fuel (path ++ [k1]) (J.map sa1) (J.map sb1) := by
              simp only [entryResultF, hlkb]
            rw [hfe] at hf
            have hx := ih fuel (path ++ [k1]) sa1 sb1 sa sb hs k hf hwa hwb hcase
            apply List.mem_append_left
            have hmem := hsub _ hx
            have heq : path ++ (k1 :: ks) ++ [k] = (path ++ [k1]) ++ ks ++ [k] := by
              simp
            rw [heq]
            exact hmem

/-- C4: counterexample to the claim as stated.  The key `gone` is
present in `a` only, so the claim says its removal is always reported;
but the sibling key `vals` holds equal lists on both sides, the
list-branch condition is true for equal sets, and
`working_path.join('.')` raises, so the whole comparison fails and
nothing at all — `gone` included — is reported. -/
theorem dictCompare_one_sided_crash_unreported :
    lookupJ [("gone", J.scalar (Scalar.num 5)),
        ("vals", J.list [J.scalar (Scalar.num 1)])] "gone"
      = some (J.scalar (Scalar.num 5))
    ∧ lookupJ [("vals", J.list [J.scalar (Scalar.num 1)])] "gone" = none
    ∧ dictCompare []
        (J.map [("gone", J.scalar (Scalar.num 5)),
          ("vals", J.list [J.scalar (Scalar.num 1)])])
        (J.map [("vals", J.list [J.scalar (Scalar.num 1)])]) = .error () :=
  ⟨rfl, rfl, rfl⟩

/-- C4 (amended): every key present in exactly one of the two compared
maps — at the top level or below any chain of nested maps present on
both sides — is reported whenever `dict_compare` returns a result
(when it raises, as in `dictCompare_one_sided_crash_unreported`,
nothing is reported at all), with no veto rule consulted: removals
(key in `a` only) come from the per-key loop and additions (key in `b`
only) from the final `set(b.keys()) - set(a.keys())` pass, both
unconditionally. -/
theorem dictCompare_reports_added_removed (ks path : List String)
    (as bs sa sb : List (String × J)) (res : List String) (k : String)
    (hok : dictCompare path (J.map as) (J.map bs) = .ok res)
    (hwa : walk (J.map as) ks = some (J.map sa))
    (hwb : walk (J.map bs) ks = some (J.map sb))
    (hcase : (lookupJ sa k).isSome ∧ lookupJ sb k = none ∨
      lookupJ sa k = none ∧ (lookupJ sb k).isSome) :
    joinPath (path ++ ks ++ [k]) ∈ res :=
  dcF_one_sided ks _ path as bs sa sb res k hok hwa hwb hcase

/-- C4 witness: in `a = {m: {x: 1}}` against `b = {m: {}, c: 2}` the
nested removal `m.x` is reported (as is the addition `c`). -/
theorem dictCompare_reports_added_removed_witness :
    joinPath (([] : List String) ++ ["m"] ++ ["x"]) ∈ (["m.x", "c"] : List String) :=
  dictCompare_reports_added_removed ["m"] []
    [("m", J.map [("x", J.scalar (Scalar.num 1))])]
    [("m", J.map []), ("c", J.scalar (Scalar.num 2))]
    [("x", J.scalar (Scalar.num 1))] [] ["m.x", "c"] "x"
    rfl rfl rfl (Or.inl ⟨rfl, rfl⟩)

/-! ## Claim C3 — vetoed leaf paths are suppressed -/

theorem joinPath_reassoc (path : List String) (k : String) (l : List String) :
    joinPath ((path ++ [k]) ++ l) = joinPath (path ++ (k :: l)) := by
  congr 1
  simp

theorem dcF_vetoed_leaf : ∀ (ks : List String) (fuel : Nat) (path : List String)
    (as bs sa sb : List (String × J)) (res : List String) (k : String) (v w : J),
    (∀ s ∈ path, dotFree s = true) →
    WF (J.map as) → WF (J.map bs) →
    dcF fuel path (J.map as) (J.map bs) = .ok res →
    walk (J.map as) ks = some (J.map sa) →
    walk (J.map bs) ks = some (J.map sb) →
    lookupJ sa k = some v → v.isMap = false →
    lookupJ sb k = some w →
    veto (joinPath (path ++ ks ++ [k])) = true →
    joinPath (path ++ ks ++ [k]) ∉ res := by
  intro ks
  induction ks with
  | nil =>
    intro fuel path as bs sa sb res k v w hpf hwfa hwfb hok hwa hwb hv hvm hw hveto
    simp only [walk] at hwa hwb
    injection hwa with hwa
    injection hwb with hwb
    injection hwa with hwa
    injection hwb with hwb
    subst hwa
    subst hwb
    have hdfk : dotFree k = true := (WF_map_entry hwfa (lookupJ_mem hv)).1
    cases fuel with
    | zero => rw [dcF_zero] at hok; cases hok
    | succ fuel =>
      rw [dcF_succ] at hok
      cases hloop : entriesLoop (entryResultF (dcF fuel) path bs) as with
      | error e => rw [hloop] at hok; cases hok
      | ok rs =>
        rw [hloop] at hok
        injection hok with hok
        subst hok
        simp only [List.append_nil] at hveto ⊢
        intro hmem
        rcases List.mem_append.mp hmem with hxr | hxa
        · obtain ⟨k', v', hs, hmem', hf, hxhs⟩ := entriesLoop_shape hloop hxr
          obtain ⟨hdfk', hwfv'⟩ := WF_map_entry hwfa hmem'
          rcases entryResultF_ok_cases hf with
            ⟨hnone, hhs⟩ | ⟨w', as2, hlkb', hveq', hrec⟩ |
            ⟨w', hlkb', hvm', hveto', hhs⟩ |
            ⟨w', vs, hlkb', hveq', hveto', hhs⟩ |
            ⟨w', sv, hlkb', hveq', hveto', hhs⟩
          · rw [hhs] at hxhs
            have hxe := List.mem_singleton.mp hxhs
            have hkk : [k] = [k'] :=
              joinPath_append_inj hpf
                (by intro s hs'; rw [List.mem_singleton] at hs'; subst hs'; exact hdfk)
                (by intro s hs'; rw [List.mem_singleton] at hs'; subst hs'; exact hdfk')
                (by simp) (by simp) hxe
            injection hkk with hkk
            subst hkk
            rw [hnone] at hw
            cases hw
          · subst hveq'
            have hwfw' : WF w' := WF_lookup hwfb hlkb'
            obtain ⟨ks'', hne'', hdf'', hxeq''⟩ :=
              dcF_shape fuel (path ++ [k']) (J.map as2) w' hs _ hwfv' hwfw' hrec hxhs
            rw [joinPath_reassoc] at hxeq''
            have hkk : [k] = k' :: ks'' :=
              joinPath_append_inj hpf
                (by intro s hs'; rw [List.mem_singleton] at hs'; subst hs'; exact hdfk)
                (by intro s hs'
                    rcases List.mem_cons.mp hs' with rfl | hm
                    · exact hdfk'
                    · exact hdf'' s hm)
                (by simp) (by simp) hxeq''
            injection hkk with hk1 hk2
            exact hne'' hk2.symm
          · rw [hhs] at hxhs
            cases hxhs
          · rw [hhs] at hxhs
            cases hxhs
          · by_cases hneq : scalarNeq sv w' = true
            · rw [hhs, if_pos hneq] at hxhs
              have hxe := List.mem_singleton.mp hxhs
              have hkk : [k] = [k'] :=
                joinPath_append_inj hpf
                  (by intro s hs'; rw [List.mem_singleton] at hs'; subst hs'; exact hdfk)
                  (by intro s hs'; rw [List.mem_singleton] at hs'; subst hs'; exact hdfk')
                  (by simp) (by simp) hxe
              injection hkk with hkk
              subst hkk
              rw [hveto] at hveto'
              cases hveto'
            · rw [hhs, if_neg hneq] at hxhs
              cases hxhs
        · obtain ⟨k'', hkb, hlka, hxeq⟩ := addedKeys_shape hxa
          obtain ⟨⟨k1, v1⟩, hpmem, hpk⟩ := List.mem_map.mp hkb
          cases hpk
          obtain ⟨hdfk'', _⟩ := WF_map_entry hwfb hpmem
          have hkk : [k] = [k1] :=
            joinPath_append_inj hpf
              (by intro s hs'; rw [List.mem_singleton] at hs'; subst hs'; exact hdfk)
              (by intro s hs'; rw [List.mem_singleton] at hs'; subst hs'; exact hdfk'')
              (by simp) (by simp) hxeq
          injection hkk with hkk
          subst hkk
          rw [hlka] at hv
          cases hv
  | cons k1 ks' ih =>
    intro fuel path as bs sa sb res k v w hpf hwfa hwfb hok hwa hwb hv hvm hw hveto
    simp only [walk] at hwa hwb
    cases hlka : lookupJ as k1 with
    | none => rw [hlka] at hwa; cases hwa
    | some v1 =>
      rw [hlka] at hwa
      cases hlkb : lookupJ bs k1 with
      | none => rw [hlkb] at hwb; cases hwb
      | some w1 =>
        rw [hlkb] at hwb
        obtain ⟨sa1, hv1⟩ : ∃ sa1, v1 = J.map sa1 := by
          cases v1 with
          | map sa1 => exact ⟨sa1, rfl⟩
          | list xs =>
            cases ks' with
            | nil => simp [walk] at hwa
            | cons k2 ks'' => simp [walk] at hwa
          | scalar s =>
            cases ks' with
            | nil => simp [walk] at hwa
            | cons k2 ks'' => simp [walk] at hwa
        obtain ⟨sb1, hw1⟩ : ∃ sb1, w1 = J.map sb1 := by
          cases w1 with
          | map sb1 => exact ⟨sb1, rfl⟩
          | list xs =>
            cases ks' with
            | nil => simp [walk] at hwb
            | cons k2 ks'' => simp [walk] at hwb
          | scalar s =>
            cases ks' with
            | nil => simp [walk] at hwb
            | cons k2 ks'' => simp [walk] at hwb
        subst hv1
        subst hw1
        have hdfk1 : dotFree k1 = true := (WF_map_entry hwfa (lookupJ_mem hlka)).1
        have hwfsa1 : WF (J.map sa1) := (WF_map_entry hwfa (lookupJ_mem hlka)).2
        have hwfsb1 : WF (J.map sb1) := (WF_map_entry hwfb (lookupJ_mem hlkb)).2
        have hksdf : ∀ s ∈ (k1 :: ks'), dotFree s = true := by
          refine (walk_keys_dotFree (k1 :: ks') (J.map as) (J.map sa) hwfa ?_).1
          simp only [walk, hlka]
          exact hwa
        have hdfk : dotFree k = true := by
          have hwf_sa : WF (J.map sa) :=
            (walk_keys_dotFree ks' (J.map sa1) (J.map sa) hwfsa1 hwa).2
          exact (WF_map_entry hwf_sa (lookupJ_mem hv)).1
        have hLdf : ∀ s ∈ (k1 :: (ks' ++ [k])), dotFree s = true := by
          intro s hs'
          rcases List.mem_cons.mp hs' with rfl | hm
          · exact hdfk1
          · rcases List.mem_append.mp hm with hm1 | hm2
            · exact hksdf s (List.Mem.tail _ hm1)
            · rw [List.mem_singleton] at hm2
              subst hm2
              exact hdfk
        have hLeq : path ++ (k1 :: ks') ++ [k] = path ++ (k1 :: (ks' ++ [k])) := by
          simp
        rw [hLeq] at hveto ⊢
        cases fuel with
        | zero => rw [dcF_zero] at hok; cases hok
        | succ fuel =>
          rw [dcF_succ] at hok
          cases hloop : entriesLoop (entryResultF (dcF fuel) path bs) as with
          | error e => rw [hloop] at hok; cases hok
          | ok rs =>
            rw [hloop] at hok
            injection hok with hok
            subst hok
            intro hmem
            rcases List.mem_append.mp hmem with hxr | hxa
            · obtain ⟨k', v', hs, hmem', hf, hxhs⟩ := entriesLoop_shape hloop hxr
              obtain ⟨hdfk', hwfv'⟩ := WF_map_entry hwfa hmem'
              rcases entryResultF_ok_cases hf with
                ⟨hnone, hhs⟩ | ⟨w', as2, hlkb', hveq', hrec⟩ |
                ⟨w', hlkb', hvm', hveto', hhs⟩ |
                ⟨w', vs, hlkb', hveq', hveto', hhs⟩ |
                ⟨w', sv, hlkb', hveq', hveto', hhs⟩
              · rw [hhs] at hxhs
                have hxe := (List.mem_singleton.mp hxhs).symm
                have hkk : [k'] = k1 :: (ks' ++ [k]) :=
                  joinPath_append_inj hpf
                    (by intro s hs'; rw [List.mem_singleton] at hs'; subst hs'
                        exact hdfk')
                    hLdf (by simp) (by simp) hxe
                injection hkk with hk1 hk2
                exact absurd hk2.symm (by simp)
              · subst hveq'
                have hwfw' : WF w' := WF_lookup hwfb hlkb'
                obtain ⟨ks'', hne'', hdf'', hxeq''⟩ :=
                  dcF_shape fuel (path ++ [k']) (J.map as2) w' hs _ hwfv' hwfw' hrec hxhs
                rw [joinPath_reassoc] at hxeq''
                have hkk : k1 :: (ks' ++ [k]) = k' :: ks'' :=
                  joinPath_append_inj hpf hLdf
                    (by intro s hs'
                        rcases List.mem_cons.mp hs' with rfl | hm
                        · exact hdfk'
                        · exact hdf'' s hm)
                    (by simp) (by simp) hxeq''
                injection hkk with hkk1 hkk2
                subst hkk1
                have hveq2 : J.map as2 = J.map sa1 :=
                  mem_eq_of_lookup_nodup hmem' (WF_map_nodup hwfa) hlka
                injection hveq2 with hveq2
                subst hveq2
                have hweq2 : w' = J.map sb1 :=
                  Option.some.inj (hlkb'.symm.trans hlkb)
                subst hweq2
                have hwa2 : walk (J.map as2) ks' = some (J.map sa) := hwa
                have hwb2 : walk (J.map sb1) ks' = some (J.map sb) := hwb
                have hstr : (path ++ [k1]) ++ ks' ++ [k] = path ++ k1 :: (ks' ++ [k]) := by
                  simp
                have hnotin := ih fuel (path ++ [k1]) as2 sb1 sa sb hs k v w
                  (by intro s hs'
                      rcases List.mem_append.mp hs' with hm1 | hm2
                      · exact hpf s hm1
                      · rw [List.mem_singleton] at hm2
                        subst hm2
                        exact hdfk1)
                  hwfv' hwfsb1 hrec hwa2 hwb2 hv hvm hw
                  (by rw [hstr]; exact hveto)
                apply hnotin
                rw [hstr]
                exact hxhs
              · rw [hhs] at hxhs
                cases hxhs
              · rw [hhs] at hxhs
                cases hxhs
              · by_cases hneq : scalarNeq sv w' = true
                · rw [hhs, if_pos hneq] at hxhs
                  have hxe := (List.mem_singleton.mp hxhs).symm
                  have hkk : [k'] = k1 :: (ks' ++ [k]) :=
                    joinPath_append_inj hpf
                      (by intro s hs'; rw [List.mem_singleton] at hs'; subst hs'
                          exact hdfk')
                      hLdf (by simp) (by simp) hxe
                  injection hkk with hk1 hk2
                  exact absurd hk2.symm (by simp)
                · rw [hhs, if_neg hneq] at hxhs
                  cases hxhs
            · obtain ⟨k'', hkb, hlka'', hxeq⟩ := addedKeys_shape hxa
              obtain ⟨⟨kb1, vb1⟩, hpmem, hpk⟩ := List.mem_map.mp hkb
              cases hpk
              obtain ⟨hdfk'', _⟩ := WF_map_entry hwfb hpmem
              have hkk : [kb1] = k1 :: (ks' ++ [k]) :=
                joinPath_append_inj hpf
                  (by intro s hs'; rw [List.mem_singleton] at hs'; subst hs'
                      exact hdfk'')
                  hLdf (by simp) (by simp) hxeq.symm
              injection hkk with hk1 hk2
              exact absurd hk2.symm (by simp)

theorem WF_single (k : String) (v : J) (hdf : dotFree k = true) (hwf : WF v) :
    WF (J.map [(k, v)]) := by
  refine WF.map _ ?_ rfl ?_
  · intro p hp
    rw [List.mem_singleton] at hp
    subst hp
    exact hdf
  · intro p hp
    rw [List.mem_singleton] at hp
    subst hp
    exact hwf

/-- C3 (amended): for every leaf path that matches a `VETO` pattern —
where the `volts|currents|counters|temps|fans` rule only matches paths
of at least three segments, i.e. the noisy segment must be preceded by
at least one other segment — no change at that path appears in a
successful compare output, provided the key is present in both
snapshots with a non-Map value on `a`'s side (one-sided keys are the
subject of C4).  Stated over well-formed snapshots (unique, dot-free
keys, as produced by Python dicts). -/
theorem dictCompare_vetoed_leaf_not_reported (ks path : List String)
    (as bs sa sb : List (String × J)) (res : List String) (k : String) (v w : J)
    (hpf : ∀ s ∈ path, dotFree s = true)
    (hwfa : WF (J.map as)) (hwfb : WF (J.map bs))
    (hok : dictCompare path (J.map as) (J.map bs) = .ok res)
    (hwa : walk (J.map as) ks = some (J.map sa))
    (hwb : walk (J.map bs) ks = some (J.map sb))
    (hv : lookupJ sa k = some v) (hvm : v.isMap = false)
    (hw : lookupJ sb k = some w)
    (hveto : veto (joinPath (path ++ ks ++ [k])) = true) :
    joinPath (path ++ ks ++ [k]) ∉ res :=
  dcF_vetoed_leaf ks _ path as bs sa sb res k v w hpf hwfa hwfb hok
    hwa hwb hv hvm hw hveto

/-- C3 witness: the spec's own example — `sys.temps.fan1` changes from
30 to 45 but matches the noisy-telemetry rule and is not reported (the
whole compare output is empty). -/
theorem dictCompare_vetoed_leaf_not_reported_witness :
    joinPath (([] : List String) ++ ["sys", "temps"] ++ ["fan1"])
      ∉ ([] : List String) :=
  dictCompare_vetoed_leaf_not_reported ["sys", "temps"] []
    [("sys", J.map [("temps", J.map [("fan1", J.scalar (Scalar.num 30))])])]
    [("sys", J.map [("temps", J.map [("fan1", J.scalar (Scalar.num 45))])])]
    [("fan1", J.scalar (Scalar.num 30))] [("fan1", J.scalar (Scalar.num 45))]
    [] "fan1" (J.scalar (Scalar.num 30)) (J.scalar (Scalar.num 45))
    (by simp)
    (WF_single "sys" _ rfl (WF_single "temps" _ rfl
      (WF_single "fan1" _ rfl (WF.scalar _))))
    (WF_single "sys" _ rfl (WF_single "temps" _ rfl
      (WF_single "fan1" _ rfl (WF.scalar _))))
    rfl rfl rfl rfl rfl rfl rfl

/-! ## Adequacy of the fuel in `dictCompare`

The result of `dcF` does not depend on the fuel once it exceeds
`sizeJ a`: the `a` argument strictly shrinks at every recursive call,
so the fuel-exhaustion branch of `dcF` is unreachable from
`dictCompare` and the wrapper faithfully models the untruncated
recursion of `dict_compare`. -/

theorem sizeJ_pos (a : J) : 1 ≤ sizeJ a := by
  cases a <;> (simp only [sizeJ]; omega)

theorem sizeJ_mem_lt {as : List (String × J)} {p : String × J} (h : p ∈ as) :
    sizeJ p.2 < sizeJ (J.map as) := by
  have hlt : sizeJ p.2 < 1 + sizeEntries as := by
    induction as with
    | nil => cases h
    | cons hd rest ih =>
      obtain ⟨k0, v0⟩ := hd
      rcases List.mem_cons.mp h with rfl | hm
      · simp only [sizeEntries]
        omega
      · have := ih hm
        simp only [sizeEntries]
        omega
  simpa [sizeJ] using hlt

theorem entriesLoop_congr {f g : String → J → Except Unit (List String)} :
    ∀ {entries : List (String × J)}, (∀ p ∈ entries, f p.1 p.2 = g p.1 p.2) →
    entriesLoop f entries = entriesLoop g entries := by
  intro entries
  induction entries with
  | nil => intro; rfl
  | cons hd rest ih =>
    intro hfg
    obtain ⟨k, v⟩ := hd
    simp only [entriesLoop]
    rw [hfg (k, v) (List.Mem.head _), ih (fun p hp => hfg p (List.Mem.tail _ hp))]

theorem dcF_fuel_irrelevant : ∀ (n m1 m2 : Nat) (path : List String) (a b : J),
    sizeJ a ≤ n → sizeJ a < m1 → sizeJ a < m2 →
    dcF m1 path a b = dcF m2 path a b := by
  intro n
  induction n with
  | zero =>
    intro m1 m2 path a b hn
    exfalso
    have := sizeJ_pos a
    omega
  | succ n ih =>
    intro m1 m2 path a b hn h1 h2
    cases m1 with
    | zero => exact absurd h1 (Nat.not_lt_zero _)
    | succ m1' =>
      cases m2 with
      | zero => exact absurd h2 (Nat.not_lt_zero _)
      | succ m2' =>
        cases a with
        | list xs =>
          rw [dcF_nonmap (m1' + 1) path (J.list xs) b (Or.inl rfl),
            dcF_nonmap (m2' + 1) path (J.list xs) b (Or.inl rfl)]
        | scalar s =>
          rw [dcF_nonmap (m1' + 1) path (J.scalar s) b (Or.inl rfl),
            dcF_nonmap (m2' + 1) path (J.scalar s) b (Or.inl rfl)]
        | map as =>
          cases b with
          | list xs =>
            rw [dcF_nonmap (m1' + 1) path (J.map as) (J.list xs) (Or.inr rfl),
              dcF_nonmap (m2' + 1) path (J.map as) (J.list xs) (Or.inr rfl)]
          | scalar s =>
            rw [dcF_nonmap (m1' + 1) path (J.map as) (J.scalar s) (Or.inr rfl),
              dcF_nonmap (m2' + 1) path (J.map as) (J.scalar s) (Or.inr rfl)]
          | map bs =>
            rw [dcF_succ, dcF_succ]
            have hcong : entriesLoop (entryResultF (dcF m1') path bs) as
                = entriesLoop (entryResultF (dcF m2') path bs) as := by
              apply entriesLoop_congr
              intro p hp'
              obtain ⟨k, v⟩ := p
              have hsv : sizeJ v < sizeJ (J.map as) := sizeJ_mem_lt hp'
              unfold entryResultF
              cases hlk : lookupJ bs k with
              | none => rfl
              | some w =>
                cases v with
                | map as2 =>
                  exact ih m1' m2' (path ++ [k]) (J.map as2) w
                    (by omega) (by omega) (by omega)
                | list vs => rfl
                | scalar sv => rfl
            rw [hcong]

/-- Any fuel strictly above `sizeJ a` computes exactly `dictCompare`. -/
theorem dictCompare_fuel_adequate (path : List String) (a b : J) (m : Nat)
    (hm : sizeJ a < m) : dcF m path a b = dictCompare path a b :=
  dcF_fuel_irrelevant (sizeJ a) m (sizeJ a + 1) path a b le_rfl hm
    (Nat.lt_succ_self _)
